import Mathlib

/-!
Verification of the command-dispatch core of the meeting-assistant
repository: trigger detection, deduplication, command routing and
handler dispatch, shallowly embedded from
`meeting_interface/command_recognition.py` and
`meeting_interface/chat_handler.py`.  Text is modelled as `List Char`;
the case-insensitive regex keyword patterns of Python (plain words separated
by `\s+`) are modelled by an executable word-sequence matcher.
-/

set_option maxRecDepth 4000

/-- Whitespace characters recognised by `str.strip` and regex `\s` in Python
(ASCII subset, which is all the source ever feeds it). -/
def isWs (c : Char) : Bool :=
  c = ' ' || c = '\t' || c = '\n' || c = '\r' || c = '\x0b' || c = '\x0c'

/-- Python `str.lower` on ASCII text. -/
def lowerStr (s : List Char) : List Char := s.map Char.toLower

/-- Python `str.strip()`: remove leading and trailing whitespace. -/
def stripChars (s : List Char) : List Char :=
  ((s.dropWhile isWs).reverse.dropWhile isWs).reverse

/-- Python `str.find`: index of the first occurrence of `needle`, if any. -/
def findSub (needle : List Char) : List Char → Option Nat
  | [] => if needle.isPrefixOf ([] : List Char) then some 0 else none
  | c :: rest =>
    if needle.isPrefixOf (c :: rest) then some 0
    else (findSub needle rest).map (fun n => n + 1)

/-- Match a sequence of literal words separated by `\s+` at the head of
the input, the shape of every pattern in the command registry. -/
def matchHere : List (List Char) → List Char → Bool
  | [], _ => true
  | [w], s => w.isPrefixOf s
  | w :: ws, s =>
    w.isPrefixOf s &&
      (match s.drop w.length with
       | [] => false
       | c :: rest => isWs c && matchHere ws (rest.dropWhile isWs))

/-- Python `re.search`: the pattern matches at some position of the text. -/
def searchPat (p : List (List Char)) : List Char → Bool
  | [] => matchHere p []
  | c :: rest => matchHere p (c :: rest) || searchPat p rest

/-- Substring containment (`needle in hay` for a single literal word). -/
def containsSub (hay pat : List Char) : Bool := searchPat [pat] hay

/-- The twelve handlers registered in `CommandRecognizer.__init__`. -/
inductive CommandTag where
  | summarize
  | takeNotes
  | listParticipants
  | help
  | status
  | leave
  | mute
  | unmute
  | record
  | stopRecording
  | transcribe
  | stopTranscribing
deriving DecidableEq, Repr

/-- The `self.commands` registry, in dict insertion order, which is the
iteration order of the loop in `_process_command`. -/
def commandPatterns : List (List (List Char) × CommandTag) :=
  [ ([ "summarize".toList ], CommandTag.summarize),
    ([ "take".toList, "notes".toList ], CommandTag.takeNotes),
    ([ "list".toList, "participants".toList ], CommandTag.listParticipants),
    ([ "help".toList ], CommandTag.help),
    ([ "status".toList ], CommandTag.status),
    ([ "leave".toList ], CommandTag.leave),
    ([ "mute".toList ], CommandTag.mute),
    ([ "unmute".toList ], CommandTag.unmute),
    ([ "record".toList ], CommandTag.record),
    ([ "stop".toList, "recording".toList ], CommandTag.stopRecording),
    ([ "transcribe".toList ], CommandTag.transcribe),
    ([ "stop".toList, "transcribing".toList ], CommandTag.stopTranscribing) ]

/-- First pattern in the list that matches the text, as in the `for`
loop of `_process_command` (first match wins, then `return`). -/
def findMatch : List (List (List Char) × CommandTag) → List Char → Option CommandTag
  | [], _ => none
  | (p, tag) :: rest, text =>
    if searchPat p text then some tag else findMatch rest text

/-- Which handler `_process_command` dispatches to for a given command
text (`none` = no pattern matched, fallback reply path).  The `(?i)`
flags are realised by lowering the text; all pattern words are
lowercase. -/
def routeCommand (text : List Char) : Option CommandTag :=
  findMatch commandPatterns (lowerStr text)

/-- Fallback reply sent by `_process_command` when no pattern matches
(f-string interpolating the configured trigger word). -/
def fallbackReply (trigger : List Char) : List Char :=
  "I\x27m sorry, I don\x27t understand that command. Try saying \x27".toList
    ++ trigger ++ " help\x27 for a list of commands.".toList

/-- Outcome of one `_process_command` call: which handler was invoked
(if any) and which reply text was sent to chat (if any). -/
structure ProcessOutcome where
  invoked : Option CommandTag
  reply : Option (List Char)
deriving DecidableEq, Repr

/-- `_process_command`, with the state-dependent handler reply texts
abstracted as `hr` (`none` models a falsy response, which is not sent). -/
def processCommand (hr : CommandTag → Option (List Char)) (trigger text : List Char) :
    ProcessOutcome :=
  match routeCommand text with
  | some tag => ⟨some tag, hr tag⟩
  | none => ⟨none, some (fallbackReply trigger)⟩

/-- Lines 89-92 of `command_recognition.py`: locate the trigger word
case-insensitively and take the trimmed remainder of the original line. -/
def extractCommand (trigger line : List Char) : Option (List Char) :=
  match findSub (lowerStr trigger) (lowerStr line) with
  | none => none
  | some i => some (stripChars (line.drop (i + trigger.length)))

/-- Mutable state of `CommandRecognizer` used by the spoken-transcript
path: the monitoring flag and `last_processed_message`. -/
structure TranscriptState where
  isMonitoring : Bool
  lastProcessed : Option (List Char)
deriving DecidableEq, Repr

/-- `process_transcript_line`: returns the updated state and the command
text forwarded to `_process_command`, if any. -/
def transcriptStep (st : TranscriptState) (trigger line : List Char) :
    TranscriptState × Option (List Char) :=
  if st.isMonitoring = false ∨ line = [] then (st, none)
  else
    match extractCommand trigger line with
    | none => (st, none)
    | some cmd =>
      if cmd ≠ [] ∧ st.lastProcessed ≠ some cmd then
        ({ st with lastProcessed := some cmd }, some cmd)
      else (st, none)

/-- `process_chat_message`: returns the text forwarded to
`_process_command`, if any.  The whole message is forwarded, with no
extraction of the part after the trigger word.  `email` is
`browser_automation.google_email`. -/
def chatMessageStep (isMonitoring : Bool) (email trigger message sender : List Char) :
    Option (List Char) :=
  if isMonitoring = false ∨ message = [] then none
  else if sender = "AI Assistant".toList ∨ sender = email then none
  else if (findSub (lowerStr trigger) (lowerStr message)).isSome then some message
  else none

/-- The chat-message path end to end: `process_chat_message` followed by
`_process_command` when a candidate is produced. -/
def chatPipeline (isMonitoring : Bool) (email trigger message sender : List Char)
    (hr : CommandTag → Option (List Char)) : ProcessOutcome :=
  match chatMessageStep isMonitoring email trigger message sender with
  | none => ⟨none, none⟩
  | some t => processCommand hr trigger t

/-- Line 115 of `command_recognition.py`: the dedup identity used by
`_monitor_chat` is the f-string `"sender:text"`. -/
def messageId (sender text : List Char) : List Char :=
  sender ++ ":".toList ++ text

/-- One polling pass of `_monitor_chat` over the scraped messages,
before the size cap: returns the grown history (a Python set, modelled
as an insertion-ordered duplicate-free list) and the `(sender, text)`
pairs forwarded to `process_chat_message`. -/
def monitorPass (st : List (List Char)) :
    List (List Char × List Char) → List (List Char) × List (List Char × List Char)
  | [] => (st, [])
  | (s, t) :: rest =>
    if messageId s t ∈ st then monitorPass st rest
    else
      let r := monitorPass (st ++ [messageId s t]) rest
      (r.1, (s, t) :: r.2)

/-- Lines 130-133 / 160-163: `if len(set) > 100: keep list(set)[-50:]`,
with set iteration order modelled as insertion order. -/
def trimHistory (st : List (List Char)) : List (List Char) :=
  if st.length > 100 then st.drop (st.length - 50) else st

/-- A full `_monitor_chat` polling pass including the trailing size cap. -/
def pollPass (st : List (List Char)) (msgs : List (List Char × List Char)) :
    List (List Char) × List (List Char × List Char) :=
  let r := monitorPass st msgs
  (trimHistory r.1, r.2)

/-- One polling pass of `ChatHandler._check_for_commands` over the
scraped texts, before the size cap: the dedup identity is the message
text alone (line 142), and a deduplicated text is forwarded to
`_process_command` only when it contains "augment" (line 155). -/
def checkForCommandsPass (st : List (List Char)) :
    List (List Char) → List (List Char) × List (List Char)
  | [] => (st, [])
  | t :: rest =>
    if t ∈ st then checkForCommandsPass st rest
    else
      let r := checkForCommandsPass (st ++ [t]) rest
      (r.1, if containsSub (lowerStr t) ("augment".toList) then t :: r.2 else r.2)

/-- A full `_check_for_commands` pass including the trailing size cap. -/
def chPollPass (st : List (List Char)) (msgs : List (List Char)) :
    List (List Char) × List (List Char) :=
  let r := checkForCommandsPass st msgs
  (trimHistory r.1, r.2)

/-- Replies emitted during one `_monitor_chat` pass: each forwarded
message runs through `process_chat_message` and `_process_command`. -/
def monitorReplies (hr : CommandTag → Option (List Char)) (email trigger : List Char)
    (st : List (List Char)) (msgs : List (List Char × List Char)) : List (List Char) :=
  (monitorPass st msgs).2.filterMap
    (fun p => (chatPipeline true email trigger p.2 p.1 hr).reply)

/-- Handler-reply valuation where every handler replies with a fixed
text (all real handlers return a non-empty string when collaborators
are present). -/
def hrOk : CommandTag → Option (List Char) := fun _ => some ("ok".toList)

/-- Handler-reply valuation where every handler response is falsy. -/
def hrNone : CommandTag → Option (List Char) := fun _ => none

/-- Concrete history state of 101 distinct entries, used to exercise
the size cap. -/
def bigHistory : List (List Char) :=
  (List.range 101).map (fun n => [Char.ofNat (48 + n)])

theorem findSub_of_isPrefixOf (needle s : List Char) (h : needle.isPrefixOf s = true) :
    findSub needle s = some 0 := by
  cases s with
  | nil => simp [findSub, h]
  | cons c rest => simp [findSub, h]

theorem stripChars_eq_nil (s : List Char) (h : ∀ c ∈ s, isWs c = true) :
    stripChars s = [] := by
  have h1 : s.dropWhile isWs = [] := List.dropWhile_eq_nil_iff.mpr h
  simp [stripChars, h1]

theorem findMatch_eq_none (pats : List (List (List Char) × CommandTag)) (text : List Char)
    (h : ∀ p ∈ pats, searchPat p.1 text = false) : findMatch pats text = none := by
  induction pats with
  | nil => rfl
  | cons hd tl ih =>
    obtain ⟨p, tag⟩ := hd
    have hhd : searchPat p text = false := h (p, tag) (List.mem_cons_self _ _)
    have htl : findMatch tl text = none :=
      ih (fun q hq => h q (List.mem_cons_of_mem _ hq))
    simp [findMatch, hhd, htl]

theorem searchPat_iff (p : List (List Char)) (s : List Char) :
    searchPat p s = true ↔ ∃ t, t <:+ s ∧ matchHere p t = true := by
  induction s with
  | nil =>
    rw [searchPat]
    constructor
    · intro h
      exact ⟨[], List.suffix_rfl, h⟩
    · rintro ⟨t, ht, hm⟩
      rw [List.suffix_nil.mp ht] at hm
      exact hm
  | cons c rest ih =>
    rw [searchPat, Bool.or_eq_true, ih]
    constructor
    · rintro (h | ⟨t, ht, hm⟩)
      · exact ⟨c :: rest, List.suffix_rfl, h⟩
      · exact ⟨t, ht.trans (List.suffix_cons _ _), hm⟩
    · rintro ⟨t, ht, hm⟩
      rcases List.suffix_cons_iff.mp ht with h | h
      · subst h
        exact Or.inl hm
      · exact Or.inr ⟨t, h, hm⟩

theorem matchHere_two {w1 w2 : List Char} {s : List Char}
    (h : matchHere [w1, w2] s = true) :
    ∃ t, t <:+ s ∧ matchHere [w2] t = true := by
  have h0 : (w1.isPrefixOf s &&
      (match s.drop w1.length with
       | [] => false
       | c :: rest => isWs c && matchHere [w2] (rest.dropWhile isWs))) = true := h
  rw [Bool.and_eq_true] at h0
  obtain ⟨-, h0⟩ := h0
  cases hd : s.drop w1.length with
  | nil => rw [hd] at h0; exact absurd h0 (by simp)
  | cons c rest =>
    rw [hd] at h0
    simp only [Bool.and_eq_true] at h0
    refine ⟨rest.dropWhile isWs, ?_, h0.2⟩
    have h1 : rest.dropWhile isWs <:+ rest := List.dropWhile_suffix isWs
    have h2 : rest <:+ c :: rest := List.suffix_cons c rest
    have h3 : (c :: rest) <:+ s := hd ▸ List.drop_suffix w1.length s
    exact (h1.trans h2).trans h3

theorem findMatch_cons_elim {p : List (List Char)} {tag tag2 : CommandTag}
    {rest : List (List (List Char) × CommandTag)} {l : List Char}
    (h : findMatch ((p, tag) :: rest) l = some tag2) :
    (searchPat p l = true ∧ tag = tag2)
    ∨ (searchPat p l = false ∧ findMatch rest l = some tag2) := by
  rw [findMatch] at h
  by_cases hb : searchPat p l = true
  · rw [if_pos hb] at h
    exact Or.inl ⟨hb, Option.some.inj h⟩
  · have hb2 : searchPat p l = false := by
      cases hsp : searchPat p l
      · rfl
      · exact absurd hsp hb
    rw [if_neg hb] at h
    exact Or.inr ⟨hb2, h⟩

/-- The `stop recording` registry entry is dead code: every text the
`stop\s+recording` pattern matches also matches the bare `record`
pattern, which is tested first, so `_handle_stop_recording` is
unreachable from `_process_command` for every input. -/
theorem stopRecording_unreachable (text : List Char) :
    routeCommand text ≠ some CommandTag.stopRecording := by
  intro h
  have hkey : ∀ s : List Char,
      searchPat [ "stop".toList, "recording".toList ] s = true →
      searchPat [ "record".toList ] s = true := by
    intro s hs
    obtain ⟨t, ht, hm⟩ := (searchPat_iff _ _).mp hs
    obtain ⟨u, hu, hp⟩ := matchHere_two hm
    refine (searchPat_iff _ _).mpr ⟨u, hu.trans ht, ?_⟩
    rw [matchHere] at hp ⊢
    rw [List.isPrefixOf_iff_prefix] at hp ⊢
    have hrr : ("record".toList) <+: ("recording".toList) :=
      List.isPrefixOf_iff_prefix.mp (by rfl)
    exact hrr.trans hp
  rw [routeCommand] at h
  simp only [commandPatterns] at h
  rcases findMatch_cons_elim h with ⟨-, he⟩ | ⟨-, h⟩
  · exact absurd he (by decide)
  rcases findMatch_cons_elim h with ⟨-, he⟩ | ⟨-, h⟩
  · exact absurd he (by decide)
  rcases findMatch_cons_elim h with ⟨-, he⟩ | ⟨-, h⟩
  · exact absurd he (by decide)
  rcases findMatch_cons_elim h with ⟨-, he⟩ | ⟨-, h⟩
  · exact absurd he (by decide)
  rcases findMatch_cons_elim h with ⟨-, he⟩ | ⟨-, h⟩
  · exact absurd he (by decide)
  rcases findMatch_cons_elim h with ⟨-, he⟩ | ⟨-, h⟩
  · exact absurd he (by decide)
  rcases findMatch_cons_elim h with ⟨-, he⟩ | ⟨-, h⟩
  · exact absurd he (by decide)
  rcases findMatch_cons_elim h with ⟨-, he⟩ | ⟨-, h⟩
  · exact absurd he (by decide)
  rcases findMatch_cons_elim h with ⟨-, he⟩ | ⟨hrec, h⟩
  · exact absurd he (by decide)
  rcases findMatch_cons_elim h with ⟨hstop, -⟩ | ⟨-, h⟩
  · rw [hkey _ hstop] at hrec
    exact Bool.noConfusion hrec
  rcases findMatch_cons_elim h with ⟨-, he⟩ | ⟨-, h⟩
  · exact absurd he (by decide)
  rcases findMatch_cons_elim h with ⟨-, he⟩ | ⟨-, h⟩
  · exact absurd he (by decide)
  rw [findMatch] at h
  exact Option.noConfusion h

/-- C1: the command text "please stop recording now" is dispatched by
`_process_command` to the record handler, not the stop-recording
handler: the bare `record` pattern is tested before `stop recording` in
registry iteration order and matches inside "recording", so the
stop-variant never wins. -/
theorem c1_stop_recording_misrouted :
    routeCommand ("please stop recording now".toList) = some CommandTag.record
    ∧ CommandTag.record ≠ CommandTag.stopRecording := by decide

/-- C5: trigger detection and routing are case-insensitive: "AUGMENT
help", "augment Help" and "Augment HELP" each yield a command candidate
in the spoken path and route to the help handler, and the full texts
also route to the help handler in the chat path. -/
theorem c5_case_insensitive_routing :
    (transcriptStep ⟨true, none⟩ ("Augment".toList) ("AUGMENT help".toList)).2
        = some ("help".toList)
    ∧ routeCommand ("help".toList) = some CommandTag.help
    ∧ (transcriptStep ⟨true, none⟩ ("Augment".toList) ("augment Help".toList)).2
        = some ("Help".toList)
    ∧ routeCommand ("Help".toList) = some CommandTag.help
    ∧ (transcriptStep ⟨true, none⟩ ("Augment".toList) ("Augment HELP".toList)).2
        = some ("HELP".toList)
    ∧ routeCommand ("HELP".toList) = some CommandTag.help
    ∧ routeCommand ("AUGMENT help".toList) = some CommandTag.help
    ∧ routeCommand ("augment Help".toList) = some CommandTag.help
    ∧ routeCommand ("Augment HELP".toList) = some CommandTag.help := by decide

/-- C6: a command text matching none of the registered patterns invokes
no handler and yields the fixed "not understood" fallback reply, which
contains the configured trigger word; `_process_command` is total, so
no exception is raised. -/
theorem c6_unmatched_fallback (text : List Char) (hr : CommandTag → Option (List Char))
    (h : ∀ p ∈ commandPatterns, searchPat p.1 (lowerStr text) = false) :
    processCommand hr ("Augment".toList) text
      = ⟨none, some (fallbackReply ("Augment".toList))⟩
    ∧ containsSub (fallbackReply ("Augment".toList)) ("Augment".toList) = true := by
  have hroute : routeCommand text = none := findMatch_eq_none _ _ h
  exact ⟨by simp [processCommand, hroute], by decide⟩

theorem c6_unmatched_fallback_witness :
    processCommand hrNone ("Augment".toList) ("augment do a backflip".toList)
      = ⟨none, some (fallbackReply ("Augment".toList))⟩ :=
  (c6_unmatched_fallback ("augment do a backflip".toList) hrNone (by decide)).1

/-- C7: a chat message whose sender is the assistant itself (the fixed
display name or the configured account email) never produces a command
candidate, never invokes a handler, and never emits a reply. -/
theorem c7_self_echo_guard (isMonitoring : Bool) (email trigger message sender : List Char)
    (hr : CommandTag → Option (List Char))
    (h : sender = "AI Assistant".toList ∨ sender = email) :
    chatPipeline isMonitoring email trigger message sender hr = ⟨none, none⟩ := by
  have hstep : chatMessageStep isMonitoring email trigger message sender = none := by
    by_cases h1 : isMonitoring = false ∨ message = []
    · simp [chatMessageStep, h1]
    · rcases h with h | h <;> simp [chatMessageStep, h1, h]
  simp [chatPipeline, hstep]

theorem toLower_of_isWs {c : Char} (h : isWs c = true) : Char.toLower c = c := by
  simp [isWs] at h
  rcases h with ((((rfl | rfl) | rfl) | rfl) | rfl) | rfl <;> decide

theorem lowerStr_of_ws : ∀ ws : List Char, (∀ c ∈ ws, isWs c = true) → lowerStr ws = ws := by
  intro ws
  induction ws with
  | nil => intro _; rfl
  | cons b rest ih =>
    intro h
    rw [lowerStr, List.map_cons, toLower_of_isWs (h b (List.mem_cons_self _ _))]
    have h2 := ih (fun c hc => h c (List.mem_cons_of_mem _ hc))
    rw [lowerStr] at h2
    rw [h2]

theorem isPrefixOf_append_ws {ws : List Char} (hws : ∀ c ∈ ws, isWs c = true) :
    ∀ (w s : List Char), (∀ c ∈ w, isWs c = false) →
      w.isPrefixOf (s ++ ws) = true → w.isPrefixOf s = true := by
  intro w
  induction w with
  | nil => intro s _ _; cases s <;> rfl
  | cons c0 w2 ih =>
    intro s hw h
    cases s with
    | nil =>
      exfalso
      cases hws2 : ws with
      | nil =>
        rw [List.nil_append, hws2] at h
        exact Bool.noConfusion h
      | cons b rest =>
        rw [List.nil_append, hws2] at h
        have h0 : ((c0 == b) && w2.isPrefixOf rest) = true := h
        rw [Bool.and_eq_true] at h0
        have hcb : c0 = b := beq_iff_eq.mp h0.1
        have hc : isWs c0 = false := hw c0 (List.mem_cons_self _ _)
        have hb : isWs b = true := by
          refine hws b ?_
          rw [hws2]
          exact List.mem_cons_self _ _
        rw [hcb, hb] at hc
        exact Bool.noConfusion hc
    | cons a s2 =>
      have h0 : ((c0 == a) && w2.isPrefixOf (s2 ++ ws)) = true := h
      rw [Bool.and_eq_true] at h0
      obtain ⟨hca, h2⟩ := h0
      have h3 : w2.isPrefixOf s2 = true :=
        ih s2 (fun c hc => hw c (List.mem_cons_of_mem _ hc)) h2
      show ((c0 == a) && w2.isPrefixOf s2) = true
      rw [hca, h3]
      rfl

theorem matchHere_head_isPrefixOf {w : List Char} {p : List (List Char)} {t : List Char}
    (h : matchHere (w :: p) t = true) : w.isPrefixOf t = true := by
  cases p with
  | nil => exact h
  | cons q qs =>
    have h0 : (w.isPrefixOf t &&
        (match t.drop w.length with
         | [] => false
         | c :: rest => isWs c && matchHere (q :: qs) (rest.dropWhile isWs))) = true := h
    rw [Bool.and_eq_true] at h0
    exact h0.1

theorem searchPat_ws_false {w : List Char} {p : List (List Char)}
    (hwne : w ≠ []) (hw : ∀ c ∈ w, isWs c = false) :
    ∀ ws : List Char, (∀ c ∈ ws, isWs c = true) → searchPat (w :: p) ws = false := by
  intro ws
  induction ws with
  | nil =>
    intro _
    cases hm : matchHere (w :: p) [] with
    | false => rw [searchPat]; exact hm
    | true =>
      exfalso
      have hp := matchHere_head_isPrefixOf hm
      cases w with
      | nil => exact hwne rfl
      | cons c0 w2 => exact Bool.noConfusion (show false = true from hp)
  | cons b rest ih =>
    intro hws
    rw [searchPat, Bool.or_eq_false_iff]
    refine ⟨?_, ih (fun c hc => hws c (List.mem_cons_of_mem _ hc))⟩
    cases hm : matchHere (w :: p) (b :: rest) with
    | false => rfl
    | true =>
      exfalso
      have hp := matchHere_head_isPrefixOf hm
      cases w with
      | nil => exact hwne rfl
      | cons c0 w2 =>
        have h0 : ((c0 == b) && w2.isPrefixOf rest) = true := hp
        rw [Bool.and_eq_true] at h0
        have hcb : c0 = b := beq_iff_eq.mp h0.1
        have hc : isWs c0 = false := hw c0 (List.mem_cons_self _ _)
        have hb : isWs b = true := hws b (List.mem_cons_self _ _)
        rw [hcb, hb] at hc
        exact Bool.noConfusion hc

theorem searchPat_append_ws_false {w : List Char} {p : List (List Char)} {ws : List Char}
    (hwne : w ≠ []) (hw : ∀ c ∈ w, isWs c = false)
    (hws : ∀ c ∈ ws, isWs c = true) :
    ∀ s : List Char, searchPat [w] s = false → searchPat (w :: p) (s ++ ws) = false := by
  intro s
  induction s with
  | nil =>
    intro _
    exact searchPat_ws_false hwne hw ws hws
  | cons a s2 ih =>
    intro hno
    rw [searchPat, Bool.or_eq_false_iff] at hno
    obtain ⟨hno1, hno2⟩ := hno
    rw [List.cons_append, searchPat, Bool.or_eq_false_iff]
    refine ⟨?_, ih hno2⟩
    cases hm : matchHere (w :: p) (a :: (s2 ++ ws)) with
    | false => rfl
    | true =>
      exfalso
      have hp1 : w.isPrefixOf (a :: (s2 ++ ws)) = true := matchHere_head_isPrefixOf hm
      have hp2 : w.isPrefixOf ((a :: s2) ++ ws) = true := hp1
      have hp3 : w.isPrefixOf (a :: s2) = true :=
        isPrefixOf_append_ws hws w (a :: s2) hw hp2
      have hno1b : w.isPrefixOf (a :: s2) = false := hno1
      rw [hp3] at hno1b
      exact Bool.noConfusion hno1b

theorem routeCommand_bare_trigger {ws : List Char} (hws : ∀ c ∈ ws, isWs c = true) :
    routeCommand ("Augment".toList ++ ws) = none := by
  rw [routeCommand]
  have h1 : List.map Char.toLower ("Augment".toList) = "augment".toList := by decide
  have h2 : List.map Char.toLower ws = ws := lowerStr_of_ws ws hws
  have hlw : lowerStr ("Augment".toList ++ ws) = "augment".toList ++ ws := by
    rw [lowerStr, List.map_append, h1, h2]
  rw [hlw]
  refine findMatch_eq_none _ _ ?_
  intro p hp
  simp only [commandPatterns, List.mem_cons, List.not_mem_nil, or_false] at hp
  rcases hp with rfl | rfl | rfl | rfl | rfl | rfl | rfl | rfl | rfl | rfl | rfl | rfl <;>
    exact searchPat_append_ws_false (by decide) (by decide) hws ("augment".toList) (by decide)

/-- C2 (counterexample): in the chat-message path a message that is
exactly the bare trigger word is forwarded whole to `_process_command`,
matches no pattern, and emits the "not understood" fallback reply, so
the pipeline does not stay silent in both paths. -/
theorem c2_bare_trigger_counterexample :
    (chatPipeline true ("j@x".toList) ("Augment".toList) ("Augment".toList)
      ("Sam".toList) hrNone).reply = some (fallbackReply ("Augment".toList)) := by decide

/-- C2 (amended): in the spoken-transcript path a line that is exactly
the trigger word, or the trigger word followed only by whitespace,
produces no candidate, no handler invocation and no reply; in the
chat-message path the bare trigger message is forwarded whole to the
router, invokes no handler, and emits the fixed "not understood"
fallback reply. -/
theorem c2_bare_trigger_amended :
    (∀ (st : TranscriptState) (trigger ws : List Char), st.isMonitoring = true →
      (∀ c ∈ ws, isWs c = true) →
      transcriptStep st trigger (trigger ++ ws) = (st, none))
    ∧ ∀ (email sender ws : List Char) (hr : CommandTag → Option (List Char)),
        (∀ c ∈ ws, isWs c = true) →
        sender ≠ "AI Assistant".toList → sender ≠ email →
        chatPipeline true email ("Augment".toList) ("Augment".toList ++ ws) sender hr
          = ⟨none, some (fallbackReply ("Augment".toList))⟩ := by
  constructor
  · intro st trigger ws hmon hws
    by_cases hline : trigger ++ ws = []
    · simp [transcriptStep, hline]
    · have hpre : (lowerStr trigger).isPrefixOf (lowerStr (trigger ++ ws)) = true := by
        rw [List.isPrefixOf_iff_prefix]
        simp only [lowerStr, List.map_append]
        exact List.prefix_append _ _
      have hfind : findSub (lowerStr trigger) (lowerStr (trigger ++ ws)) = some 0 :=
        findSub_of_isPrefixOf _ _ hpre
      have hcmd : extractCommand trigger (trigger ++ ws) = some [] := by
        simp only [extractCommand, hfind]
        rw [Nat.zero_add, List.drop_left, stripChars_eq_nil ws hws]
      simp [transcriptStep, hline, hcmd, hmon]
  · intro email sender ws hr hws hs1 hs2
    have hmsg : ("Augment".toList ++ ws) ≠ [] := by simp
    have hfind : findSub (lowerStr ("Augment".toList))
        (lowerStr ("Augment".toList ++ ws)) = some 0 := by
      have h1 : List.map Char.toLower ("Augment".toList) = "augment".toList := by decide
      have h2 : List.map Char.toLower ws = ws := lowerStr_of_ws ws hws
      have hlw : lowerStr ("Augment".toList ++ ws) = "augment".toList ++ ws := by
        rw [lowerStr, List.map_append, h1, h2]
      have hlt : lowerStr ("Augment".toList) = "augment".toList := h1
      rw [hlt, hlw]
      apply findSub_of_isPrefixOf
      rw [List.isPrefixOf_iff_prefix]
      exact List.prefix_append _ _
    have hstep : chatMessageStep true email ("Augment".toList) ("Augment".toList ++ ws) sender
        = some ("Augment".toList ++ ws) := by
      rw [chatMessageStep]
      rw [if_neg (by simp [hmsg])]
      rw [if_neg ((not_or).mpr ⟨hs1, hs2⟩)]
      rw [if_pos (by rw [hfind]; rfl)]
    have hroute : routeCommand ("Augment".toList ++ ws) = none := routeCommand_bare_trigger hws
    simp only [chatPipeline, hstep, processCommand, hroute]

theorem c2_bare_trigger_amended_witness :
    transcriptStep ⟨true, none⟩ ("Augment".toList) ("Augment".toList ++ [' ']) = (⟨true, none⟩, none)
    ∧ chatPipeline true ("j@x".toList) ("Augment".toList) ("Augment".toList ++ [' ', ' '])
        ("Sam".toList) hrOk = ⟨none, some (fallbackReply ("Augment".toList))⟩ :=
  ⟨c2_bare_trigger_amended.1 ⟨true, none⟩ ("Augment".toList) [' '] rfl (by decide),
   c2_bare_trigger_amended.2 ("j@x".toList) ("Sam".toList) [' ', ' '] hrOk
     (by decide) (by decide) (by decide)⟩

/-- C3: submitting the identical (speaker, text) pair twice within the
dedup window processes it exactly once, in both chat-monitoring paths:
the second submission is dropped silently with no handler invocation,
and a concrete duplicated "Augment status" pass emits exactly one
reply. -/
theorem c3_dedup_identical_pair (st : List (List Char)) (s t : List Char) :
    monitorPass st [(s, t), (s, t)] = monitorPass st [(s, t)]
    ∧ (messageId s t ∉ st → (monitorPass st [(s, t), (s, t)]).2 = [(s, t)])
    ∧ checkForCommandsPass st [t, t] = checkForCommandsPass st [t]
    ∧ (t ∉ st → containsSub (lowerStr t) ("augment".toList) = true →
        (checkForCommandsPass st [t, t]).2 = [t])
    ∧ (monitorReplies hrOk ("j@x".toList) ("Augment".toList) []
        [(("Sam".toList), ("Augment status".toList)),
         (("Sam".toList), ("Augment status".toList))]).length = 1 := by
  refine ⟨?_, ?_, ?_, ?_, by decide⟩
  · by_cases hmem : messageId s t ∈ st <;> simp [monitorPass, hmem]
  · intro hmem; simp [monitorPass, hmem]
  · by_cases hmem : t ∈ st <;> simp [checkForCommandsPass, hmem]
  · intro hmem htrig
    simp [checkForCommandsPass, hmem, htrig]
    exact htrig

theorem c3_dedup_identical_pair_witness :
    (monitorPass [] [(("Sam".toList), ("Augment status".toList)),
        (("Sam".toList), ("Augment status".toList))]).2
      = [(("Sam".toList), ("Augment status".toList))]
    ∧ (checkForCommandsPass [] [("Augment status".toList), ("Augment status".toList)]).2
      = [("Augment status".toList)] :=
  ⟨(c3_dedup_identical_pair [] ("Sam".toList) ("Augment status".toList)).2.1 (by decide),
   (c3_dedup_identical_pair [] ("Sam".toList) ("Augment status".toList)).2.2.2.1
     (by decide) (by decide)⟩

/-- C4 (counterexample): in `_monitor_chat` two messages with distinct
senders and identical text are both processed and two replies are
emitted, refuting the claim that the dedup identity collapses every
such pair into one processed event. -/
theorem c4_distinct_speakers_counterexample :
    (monitorReplies hrOk ("j@x".toList) ("Augment".toList) []
      [(("Alice".toList), ("Augment status".toList)),
       (("Bob".toList), ("Augment status".toList))]).length = 2 := by decide

/-- C4 (amended): the collapse holds only where the dedup key is the
rendered text alone: `ChatHandler._check_for_commands` processes
identical text once, while `CommandRecognizer._monitor_chat` keys on
"sender:text", so events with distinct senders and identical text are
both processed there. -/
theorem c4_dedup_key_amended (st : List (List Char)) (s1 s2 t : List Char) :
    (t ∉ st → containsSub (lowerStr t) ("augment".toList) = true →
      (checkForCommandsPass st [t, t]).2 = [t])
    ∧ (messageId s1 t ∉ st → messageId s2 t ∉ st → messageId s1 t ≠ messageId s2 t →
        (monitorPass st [(s1, t), (s2, t)]).2 = [(s1, t), (s2, t)]) := by
  constructor
  · intro hmem htrig
    simp [checkForCommandsPass, hmem, htrig]
    exact htrig
  · intro h1 h2 hne
    have hne2 : messageId s2 t ≠ messageId s1 t := Ne.symm hne
    simp [monitorPass, h1, h2, hne2]

theorem c4_dedup_key_amended_witness :
    (checkForCommandsPass [] [("Augment help".toList), ("Augment help".toList)]).2
      = [("Augment help".toList)]
    ∧ (monitorPass [] [(("Alice".toList), ("Augment status".toList)),
        (("Bob".toList), ("Augment status".toList))]).2
      = [(("Alice".toList), ("Augment status".toList)),
         (("Bob".toList), ("Augment status".toList))] :=
  ⟨(c4_dedup_key_amended [] ("Alice".toList) ("Bob".toList) ("Augment help".toList)).1
      (by decide) (by decide),
   (c4_dedup_key_amended [] ("Alice".toList) ("Bob".toList) ("Augment status".toList)).2
      (by decide) (by decide) (by decide)⟩

theorem c7_self_echo_guard_witness :
    chatPipeline true ("j@x".toList) ("Augment".toList) ("Augment help".toList)
      ("AI Assistant".toList) hrOk = ⟨none, none⟩ :=
  c7_self_echo_guard true ("j@x".toList) ("Augment".toList) ("Augment help".toList)
    ("AI Assistant".toList) hrOk (Or.inl rfl)

theorem monitorPass_state_extends (msgs : List (List Char × List Char)) :
    ∀ st, ∃ l, (monitorPass st msgs).1 = st ++ l := by
  induction msgs with
  | nil => intro st; exact ⟨[], by simp [monitorPass]⟩
  | cons m rest ih =>
    intro st
    obtain ⟨s, t⟩ := m
    by_cases hmem : messageId s t ∈ st
    · obtain ⟨l, hl⟩ := ih st
      exact ⟨l, by simp [monitorPass, hmem, hl]⟩
    · obtain ⟨l, hl⟩ := ih (st ++ [messageId s t])
      exact ⟨messageId s t :: l, by simp [monitorPass, hmem, hl]⟩

theorem checkForCommandsPass_state_extends (texts : List (List Char)) :
    ∀ st, ∃ l, (checkForCommandsPass st texts).1 = st ++ l := by
  induction texts with
  | nil => intro st; exact ⟨[], by simp [checkForCommandsPass]⟩
  | cons t rest ih =>
    intro st
    by_cases hmem : t ∈ st
    · obtain ⟨l, hl⟩ := ih st
      exact ⟨l, by simp [checkForCommandsPass, hmem, hl]⟩
    · obtain ⟨l, hl⟩ := ih (st ++ [t])
      exact ⟨t :: l, by simp [checkForCommandsPass, hmem, hl]⟩

theorem trimHistory_spec (pre : List (List Char)) :
    (pre.length ≤ 100 → trimHistory pre = pre)
    ∧ (pre.length > 100 →
        trimHistory pre = pre.drop (pre.length - 50)
        ∧ (trimHistory pre).length = 50
        ∧ trimHistory pre ⊆ pre) := by
  constructor
  · intro h
    unfold trimHistory
    rw [if_neg (by omega)]
  · intro h
    have htrim : trimHistory pre = pre.drop (pre.length - 50) := by
      unfold trimHistory
      rw [if_pos (by omega)]
    refine ⟨htrim, ?_, ?_⟩
    · rw [htrim, List.length_drop]
      omega
    · rw [htrim]
      exact List.drop_subset _ _

/-- C8: the dedup history is bounded.  During a polling pass entries
are only ever added; the trailing cap check removes entries only when
the grown history exceeds 100, and then retains exactly the 50 entries
at the tail of the history order (the most recent ones, with set
iteration modelled as insertion order), a subset of the pre-trim
history.  This holds for both `_monitor_chat` and
`_check_for_commands`. -/
theorem c8_history_bounded (st : List (List Char)) (msgs : List (List Char × List Char))
    (texts : List (List Char)) :
    (∃ l, (monitorPass st msgs).1 = st ++ l)
    ∧ ((monitorPass st msgs).1.length ≤ 100 → (pollPass st msgs).1 = (monitorPass st msgs).1)
    ∧ ((monitorPass st msgs).1.length > 100 →
        (pollPass st msgs).1
            = (monitorPass st msgs).1.drop ((monitorPass st msgs).1.length - 50)
          ∧ (pollPass st msgs).1.length = 50
          ∧ (pollPass st msgs).1 ⊆ (monitorPass st msgs).1)
    ∧ (∃ l, (checkForCommandsPass st texts).1 = st ++ l)
    ∧ ((checkForCommandsPass st texts).1.length ≤ 100 →
        (chPollPass st texts).1 = (checkForCommandsPass st texts).1)
    ∧ ((checkForCommandsPass st texts).1.length > 100 →
        (chPollPass st texts).1
            = (checkForCommandsPass st texts).1.drop
                ((checkForCommandsPass st texts).1.length - 50)
          ∧ (chPollPass st texts).1.length = 50
          ∧ (chPollPass st texts).1 ⊆ (checkForCommandsPass st texts).1) := by
  have hpoll : (pollPass st msgs).1 = trimHistory (monitorPass st msgs).1 := rfl
  have hch : (chPollPass st texts).1 = trimHistory (checkForCommandsPass st texts).1 := rfl
  refine ⟨monitorPass_state_extends msgs st, ?_, ?_,
    checkForCommandsPass_state_extends texts st, ?_, ?_⟩
  · intro h
    rw [hpoll, (trimHistory_spec _).1 h]
  · intro h
    obtain ⟨h1, h2, h3⟩ := (trimHistory_spec _).2 h
    rw [hpoll]
    exact ⟨h1, by rw [h1] at h2 ⊢; exact h2, by rw [h1] at h3 ⊢; exact h3⟩
  · intro h
    rw [hch, (trimHistory_spec _).1 h]
  · intro h
    obtain ⟨h1, h2, h3⟩ := (trimHistory_spec _).2 h
    rw [hch]
    exact ⟨h1, by rw [h1] at h2 ⊢; exact h2, by rw [h1] at h3 ⊢; exact h3⟩

theorem c8_history_bounded_witness :
    (monitorPass bigHistory []).1.length > 100
    ∧ (pollPass bigHistory []).1.length = 50
    ∧ (chPollPass bigHistory []).1.length = 50 :=
  ⟨by decide,
   ((c8_history_bounded bigHistory [] []).2.2.1 (by decide)).2.1,
   ((c8_history_bounded bigHistory [] []).2.2.2.2.2 (by decide)).2.1⟩

theorem transcriptStep_forwarded {st st1 : TranscriptState} {trigger line c : List Char}
    (h : transcriptStep st trigger line = (st1, some c)) :
    st.isMonitoring = true ∧ line ≠ [] ∧ extractCommand trigger line = some c ∧ c ≠ []
    ∧ st.lastProcessed ≠ some c
    ∧ st1 = { isMonitoring := st.isMonitoring, lastProcessed := some c } := by
  by_cases h1 : st.isMonitoring = false ∨ line = []
  · simp [transcriptStep, h1] at h
  · push_neg at h1
    obtain ⟨hmon, hline⟩ := h1
    have hmon2 : st.isMonitoring = true := by
      cases hb : st.isMonitoring
      · exact absurd hb hmon
      · rfl
    cases hE : extractCommand trigger line with
    | none => simp [transcriptStep, hmon2, hline, hE] at h
    | some cmd =>
      by_cases h2 : cmd ≠ [] ∧ st.lastProcessed ≠ some cmd
      · simp [transcriptStep, hmon2, hline, hE, h2.1, h2.2] at h
        obtain ⟨hst, hcc⟩ := h
        subst hcc
        have hst2 : st1 = { isMonitoring := st.isMonitoring, lastProcessed := some cmd } := by
          rw [hmon2]
          exact hst.symm
        exact ⟨hmon2, hline, rfl, h2.1, h2.2, hst2⟩
      · simp [transcriptStep, hmon2, hline, hE, h2] at h

/-- C10: the spoken-transcript path deduplicates only against the
single most recently processed command: re-submitting a line whose
extracted command equals the immediately preceding processed command is
dropped, but after any different command has been processed in between
the same line is processed again. -/
theorem c10_transcript_dedup_single (st st1 st2 : TranscriptState)
    (trigger l1 l2 c d : List Char)
    (h1 : transcriptStep st trigger l1 = (st1, some c))
    (h2 : transcriptStep st1 trigger l2 = (st2, some d)) (hdc : d ≠ c) :
    (transcriptStep st1 trigger l1).2 = none
    ∧ (transcriptStep st2 trigger l1).2 = some c := by
  obtain ⟨hmon, hline, hext, hc, _, hst1⟩ := transcriptStep_forwarded h1
  obtain ⟨hmon1, _, _, _, _, hst2⟩ := transcriptStep_forwarded h2
  have hmon2 : st2.isMonitoring = true := by
    rw [hst2]
    exact hmon1
  constructor
  · simp [transcriptStep, hst1, hmon, hline, hext]
  · simp [transcriptStep, hmon2, hst2, hst1, hmon, hline, hext, hc, hdc]

theorem c10_transcript_dedup_single_witness :
    (transcriptStep ⟨true, some ("status".toList)⟩ ("Augment".toList)
        ("Augment status".toList)).2 = none
    ∧ (transcriptStep ⟨true, some ("help".toList)⟩ ("Augment".toList)
        ("Augment status".toList)).2 = some ("status".toList) :=
  c10_transcript_dedup_single ⟨true, none⟩ ⟨true, some ("status".toList)⟩
    ⟨true, some ("help".toList)⟩ ("Augment".toList) ("Augment status".toList)
    ("Augment help".toList) ("status".toList) ("help".toList)
    (by decide) (by decide) (by decide)
